import Mathlib

/-!
# koron-go/subcmd: a hierarchical sub-command dispatcher

Shallow embedding of `subcmd.go`.

* Go strings are embedded as Lean `String` (valid UTF-8 text).  Go's `len(s)` is the
  number of bytes, `String.utf8ByteSize`; the `fmt` verbs pad by the number of runes,
  `String.length`, and reject a width above 1000000.
* A `context.Context` is embedded by the one value this package stores in it, the
  name-path kept under `keyNames{}` (`none` when the key is absent).
* A handler (`CommandFunc`) may have side effects; they are made explicit by passing
  a world state of an arbitrary type `σ` through every `Run`.
* The `error` interface is the closed sum `GoError`: the two error values this
  package builds, and a value `custom e` for any other error a handler returns.
* `withName` gives the name-path a new context reads when it is made. What is stored
  is a slice; the section on slices keeps the backing arrays in an explicit store, to
  follow what `append` does to contexts made earlier.
* `path/filepath` depends on the operating system; its separator test and the length
  of the volume name are the parameters `PathOS`.
-/

set_option autoImplicit false

namespace Subcmd

/-! ## Data model -/

/-- The execution context: the value stored under `keyNames{}`, if any. -/
structure Context where
  names : Option (List String)

mutual
/-- Leaf unit: `type Command struct { name, desc string; runFn CommandFunc }`. -/
inductive Command (σ ε : Type) where
  | mk (name desc : String)
       (runFn : Option (Context → List String → σ → Option (GoError σ ε) × σ))
/-- Group unit: `type Set struct { name, desc string; Runners []Runner }`. -/
inductive Set (σ ε : Type) where
  | mk (name desc : String) (Runners : List (Runner σ ε))
/-- The interface `Runner`, implemented by `Command` and by `Set`. -/
inductive Runner (σ ε : Type) where
  | command (c : Command σ ε)
  | set (s : Set σ ε)
/-- Values of the interface `error`: `errorString` is what `fmt.Errorf` builds,
`errorSetRun` is `&errorSetRun{src, msg}`, `custom` is any other error value. -/
inductive GoError (σ ε : Type) where
  | errorString (s : String)
  | errorSetRun (src : Set σ ε) (msg : String)
  | custom (e : ε)
end

/-- The handler type `CommandFunc`: `func(ctx context.Context, args []string) error`,
with the world state it may read and change made explicit; `none` is the `nil` error. -/
abbrev CommandFunc (σ ε : Type) := Context → List String → σ → Option (GoError σ ε) × σ

variable {σ ε : Type}

/-- `DefineCommand(name, desc, fn)`. -/
def DefineCommand (name desc : String) (fn : Option (CommandFunc σ ε)) : Command σ ε :=
  .mk name desc fn

/-- `Command.Name`. -/
def Command.Name : Command σ ε → String
  | .mk name _ _ => name

/-- `Command.Desc`. -/
def Command.Desc : Command σ ε → String
  | .mk _ desc _ => desc

/-- The field `runFn` of a `Command`; `none` is the `nil` function. -/
def Command.runFn : Command σ ε → Option (CommandFunc σ ε)
  | .mk _ _ fn => fn

/-- `DefineSet(name, desc, runners...)`. -/
def DefineSet (name desc : String) (runners : List (Runner σ ε)) : Set σ ε :=
  .mk name desc runners

/-- `Set.Name`. -/
def Set.Name : Set σ ε → String
  | .mk name _ _ => name

/-- `Set.Desc`. -/
def Set.Desc : Set σ ε → String
  | .mk _ desc _ => desc

/-- The field `Runners` of a `Set`. -/
def Set.Runners : Set σ ε → List (Runner σ ε)
  | .mk _ _ rs => rs

/-- Interface method `Runner.Name`. -/
def Runner.Name : Runner σ ε → String
  | .command c => c.Name
  | .set s => s.Name

/-- Interface method `Runner.Desc`. -/
def Runner.Desc : Runner σ ε → String
  | .command c => c.Desc
  | .set s => s.Desc

/-! ## Name-path -/

/-- `context.Background()`: no name-path recorded. -/
def Background : Context :=
  { names := none }

/-- `Names(ctx)`: the recorded name-path, `nil` when there is none. -/
def Names (ctx : Context) : List String :=
  match ctx.names with
  | some names => names
  | none => []

/-- `withName(ctx, r)`: `context.WithValue(ctx, keyNames{}, append(Names(ctx), r.Name()))`. -/
def withName (ctx : Context) (r : Runner σ ε) : Context :=
  { names := some (Names ctx ++ [r.Name]) }

/-- `strings.Join(elems, sep)`. -/
def stringsJoin (elems : List String) (sep : String) : String :=
  sep.intercalate elems

/-! ## Dispatch -/

/-- `Command.Run`. -/
def Command.Run (c : Command σ ε) (ctx : Context) (args : List String) (w : σ) :
    Option (GoError σ ε) × σ :=
  let ctx := withName ctx (.command c)
  match c.runFn with
  | none =>
    let names := stringsJoin (Names ctx) " "
    (some (.errorString ("no function declared for command: " ++ names)), w)
  | some fn => fn ctx args w

/-- The loop of `Set.childRunner` over the slice `s.Runners`. -/
def childRunnerLoop (rs : List (Runner σ ε)) (name : String) : Option (Runner σ ε) :=
  match rs with
  | [] => none
  | r :: rest => if r.Name = name then some r else childRunnerLoop rest name

/-- `Set.childRunner`: the first child named `name`, `none` (Go `nil`) when there is none. -/
def Set.childRunner (s : Set σ ε) (name : String) : Option (Runner σ ε) :=
  childRunnerLoop s.Runners name

mutual
/-- `Set.Run`. -/
def Set.Run (s : Set σ ε) (ctx : Context) (args : List String) (w : σ) :
    Option (GoError σ ε) × σ :=
  match args with
  | [] => (some (.errorSetRun s "no commands selected"), w)
  | name :: rest =>
    match h : s.childRunner name with
    | none => (some (.errorSetRun s "command not found"), w)
    | some child => Runner.Run child (withName ctx (.set s)) rest w
termination_by 2 * sizeOf s
decreasing_by
  have hmem : ∀ rs : List (Runner σ ε), childRunnerLoop rs name = some child → child ∈ rs := by
    intro rs
    induction rs with
    | nil => intro h0; simp [childRunnerLoop] at h0
    | cons a rest ih =>
      intro h0
      unfold childRunnerLoop at h0
      split at h0
      · cases h0; simp
      · exact List.mem_cons_of_mem _ (ih h0)
  cases s with
  | mk n d rs =>
    have hlt := List.sizeOf_lt_of_mem (hmem rs h)
    simp only [Set.mk.sizeOf_spec]
    omega
/-- Interface method `Runner.Run`: dynamic dispatch on the variant. -/
def Runner.Run (r : Runner σ ε) (ctx : Context) (args : List String) (w : σ) :
    Option (GoError σ ε) × σ :=
  match r with
  | .command c => c.Run ctx args w
  | .set s => Set.Run s ctx args w
termination_by 2 * sizeOf r + 1
decreasing_by
  all_goals simp_wf
  all_goals omega
end

/-- The top-level `Run(r, args...)`. -/
def Run (r : Runner σ ε) (args : List String) (w : σ) : Option (GoError σ ε) × σ :=
  r.Run Background args w

/-! ## Rendering of the resolution error -/

/-- A run of `n` spaces, the padding `fmt` writes. -/
def spaces (n : Nat) : String :=
  String.mk (List.replicate n ' ')

/-- The verb `%-*s` of `fmt` with the width argument `wid`. A width above 1000000 is
rejected (`tooLarge`): `fmt` writes `%!(BADWIDTH)` and then the string without padding.
Otherwise it writes the string, then `wid` minus its rune count spaces (none when that
is not positive). -/
def fmtLeftJustify (wid : Nat) (s : String) : String :=
  if wid > 1000000 then "%!(BADWIDTH)" ++ s
  else s ++ spaces (wid - s.length)

/-- The first loop of `errorSetRun.Error`: the width of the name column. -/
def columnWidth (rs : List (Runner σ ε)) : Nat :=
  rs.foldl (fun w r =>
    let n := r.Name.utf8ByteSize + 1
    if n > w then (n + 3) / 4 * 4 else w) 12

/-- `errorSetRun.Error`, on the fields `src` and `msg` of the error. -/
def errorSetRun.Error (src : Set σ ε) (msg : String) : String :=
  let w := columnWidth src.Runners
  let bb := ""
  let bb := bb ++ (msg ++ ".\n\nAvailable sub-commands are:\n")
  src.Runners.foldl (fun bb r => bb ++ ("\n\t" ++ fmtLeftJustify w r.Name ++ r.Desc)) bb

/-- The method `Error()` of an error value; `render` is that of the other errors. -/
def GoError.Error (render : ε → String) : GoError σ ε → String
  | .errorString s => s
  | .errorSetRun src msg => errorSetRun.Error src msg
  | .custom e => render e

/-! ## Specification vocabulary -/

/-- The child `c` is the first child of `s`, in definition order, whose name is `sel`. -/
def FirstChild (s : Set σ ε) (sel : String) (c : Runner σ ε) : Prop :=
  ∃ pre post, s.Runners = pre ++ c :: post ∧ (∀ r ∈ pre, r.Name ≠ sel) ∧ c.Name = sel

/-- Routing from the group `g` with the selectors `sels` passes through the groups
`g :: gs`, each selector naming the first matching child of the group it reaches, and
ends at the leaf `l`. -/
inductive Routes : Set σ ε → List (Set σ ε) → List String → Command σ ε → Prop where
  | leaf {g : Set σ ε} {a : String} {l : Command σ ε} :
      FirstChild g a (.command l) → Routes g [] [a] l
  | group {g g' : Set σ ε} {gs : List (Set σ ε)} {a : String} {sels : List String}
      {l : Command σ ε} :
      FirstChild g a (.set g') → Routes g' gs sels l → Routes g (g' :: gs) (a :: sels) l

/-! ## Fixtures of `subcmd_test.go` -/

/-- The handler `record` of `TestSet`: it stores the name-path and the arguments. -/
def record : CommandFunc (List String × List String) Unit :=
  fun ctx args _ => (none, (Names ctx, args))

/-- The leaf `add` of `TestSet`. -/
def testAdd : Command (List String × List String) Unit :=
  DefineCommand "add" "" (some record)

/-- The group `user` of `TestSet`. -/
def testUser : Set (List String × List String) Unit :=
  DefineSet "user" "" [
    .command (DefineCommand "list" "" (some record)),
    .command testAdd,
    .command (DefineCommand "delete" "" (some record))]

/-- The tree `set` of `TestSet`. -/
def testSet : Set (List String × List String) Unit :=
  DefineSet "set" "" [
    .set testUser,
    .set (DefineSet "post" "" [
      .command (DefineCommand "list" "" (some record)),
      .command (DefineCommand "add" "" (some record)),
      .command (DefineCommand "delete" "" (some record))])]

/-- The group `item` of `TestSetFails`, which has no children. -/
def testItem : Set Unit Unit :=
  DefineSet "item" "operate items" []

/-- The tree `fail` of `TestSetFails`. -/
def testFail : Set Unit Unit :=
  DefineSet "fail" "" [
    .command (DefineCommand "list" "list all entries" none),
    .command (DefineCommand "add" "add a new entry" none),
    .command (DefineCommand "delete" "delete an entry" none),
    .set testItem]

/-- The tree `faillong` of `TestAutoWidth`. -/
def testFailLong : Set Unit Unit :=
  DefineSet "faillong" "" [
    .command (DefineCommand "verylongname" "long name command" none),
    .command (DefineCommand "short" "short name command" none)]

/-- A name of 1000000 bytes: `strings.Repeat("a", 1000000)`. -/
def longName : String :=
  String.mk (List.replicate 1000000 'a')

/-- A group whose first child has the name `longName`. -/
def testLongName : Set Unit Unit :=
  DefineSet "s" "" [
    .command (DefineCommand longName "d" none),
    .command (DefineCommand "x" "E" none)]

/-- A group whose only child has a name of 4 characters and 12 bytes. -/
def testWide : Set Unit Unit :=
  DefineSet "wide" "" [.command (DefineCommand "日本語コ" "" none)]

/-- The leaf `foo` of `TestCommandNil`, which has no handler. -/
def testFoo : Command Unit Unit :=
  DefineCommand "foo" "TestCommandNil" none

/-! ## Scoped flag sets -/

/-- The type `flag.ErrorHandling`. -/
inductive ErrorHandling where
  | ContinueOnError
  | ExitOnError
  | PanicOnError
  deriving DecidableEq, Repr

/-- The fields of a `flag.FlagSet` that `flag.NewFlagSet` sets. -/
structure FlagSetValue where
  name : String
  errorHandling : ErrorHandling
  deriving DecidableEq, Repr

/-- `flag.NewFlagSet(name, errorHandling)`. -/
def flagNewFlagSet (name : String) (errorHandling : ErrorHandling) : FlagSetValue :=
  { name := name, errorHandling := errorHandling }

/-- The method `Name` of a `flag.FlagSet`. -/
def FlagSetValue.Name (f : FlagSetValue) : String :=
  f.name

/-- `FlagSet(ctx)`. -/
def FlagSet (ctx : Context) : FlagSetValue :=
  let name := stringsJoin (Names ctx) " "
  flagNewFlagSet name .ExitOnError

/-! ## Further fixtures -/

/-- The handler of `TestFlagSet`: it stores the name of its flag set. -/
def recordFlagSetName : CommandFunc String Unit :=
  fun ctx _ _ => (none, (FlagSet ctx).Name)

/-- The leaf `third` of `TestFlagSet`. -/
def testThird : Command String Unit :=
  DefineCommand "third" "" (some recordFlagSetName)

/-- The group `second` of `TestFlagSet`. -/
def testSecond : Set String Unit :=
  DefineSet "second" "" [.command testThird]

/-- The tree `first` of `TestFlagSet`. -/
def testFirst : Set String Unit :=
  DefineSet "first" "" [.set testSecond]

/-- A handler that stores the number `n` in the world. -/
def mark (n : Nat) : CommandFunc Nat Unit :=
  fun _ _ _ => (none, n)

/-- A group with two children of the same name `dup`, after a child `other`. -/
def testDup : Set Nat Unit :=
  DefineSet "root" "" [
    .command (DefineCommand "other" "" (some (mark 0))),
    .command (DefineCommand "dup" "first" (some (mark 1))),
    .command (DefineCommand "dup" "second" (some (mark 2)))]

/-! ## The route of a run -/

/-- The route of a run: the dispatch of `Runner.Run` with the handler call and the errors
left out. It gives the groups whose selector matched a child, in the order they are
passed, and the unit at which the dispatch stops. -/
def Runner.route : Runner σ ε → List String → List (Set σ ε) × Runner σ ε
  | .command c, _ => ([], .command c)
  | .set s, [] => ([], .set s)
  | .set s, name :: rest =>
    match s.childRunner name with
    | none => ([], .set s)
    | some child => (s :: (Runner.route child rest).1, (Runner.route child rest).2)

mutual
/-- The depth of a unit: the largest number of steps from it down to a unit below it. -/
def Runner.depth : Runner σ ε → Nat
  | .command _ => 0
  | .set s => Set.depth s
/-- The depth of a group: one more than the largest depth of its children, 0 without
children. -/
def Set.depth : Set σ ε → Nat
  | .mk _ _ rs => depthList rs
/-- One more than the largest depth in a list of children, 0 for no children. -/
def depthList : List (Runner σ ε) → Nat
  | [] => 0
  | r :: rs => max (Runner.depth r + 1) (depthList rs)
end

/-- The context after passing the groups `gs`: extended with the name of each in turn. -/
def passGroups (ctx : Context) (gs : List (Set σ ε)) : Context :=
  gs.foldl (fun c g => withName c (.set g)) ctx

/-! ## The name of the root set -/

/-- What `path/filepath` takes from the operating system: `os.IsPathSeparator`, and the
length of `filepath.VolumeName(path)` (always 0 on Unix). -/
structure PathOS where
  IsPathSeparator : Char → Bool
  volumeNameLen : String → Nat

/-- The Unix rules: the separator is `/` and there are no volume names. -/
def unixPaths : PathOS :=
  { IsPathSeparator := fun c => c == '/', volumeNameLen := fun _ => 0 }

/-- The loop of `filepath.Split`, on `k = i + 1`: it steps back while `i >= len(vol)` and
`path[i]` is no separator, and gives the index where the file part starts. Separators
are ASCII, so scanning characters is scanning bytes. -/
def filepathSplitLoop (os : PathOS) (vol : Nat) (path : List Char) : Nat → Nat
  | 0 => 0
  | i + 1 =>
    if i ≥ vol ∧ os.IsPathSeparator (path.getD i ' ') = false then
      filepathSplitLoop os vol path i
    else i + 1

/-- `filepath.Split(path)`: the directory part and the file part. -/
def filepathSplit (os : PathOS) (path : String) : String × String :=
  let k := filepathSplitLoop os (os.volumeNameLen path) path.data path.data.length
  (String.mk (path.data.take k), String.mk (path.data.drop k))

/-- The loop of `filepath.Ext`, on `k = i + 1`: it steps back to the last dot of the final
element and gives the text from that dot on, or nothing when a separator or the start
comes first. -/
def filepathExtLoop (os : PathOS) (path : List Char) : Nat → List Char
  | 0 => []
  | i + 1 =>
    if os.IsPathSeparator (path.getD i ' ') = false then
      if path.getD i ' ' = '.' then path.drop i else filepathExtLoop os path i
    else []

/-- `filepath.Ext(path)`. -/
def filepathExt (os : PathOS) (path : String) : String :=
  String.mk (filepathExtLoop os path.data path.data.length)

/-- `stripExeExt(in)`. -/
def stripExeExt (os : PathOS) (input : String) : String :=
  let out := (filepathSplit os input).2
  let ext := filepathExt os out
  if ext = ".exe" then
    String.mk (out.data.take (out.length - ext.length))
  else out

/-! ## Name-paths as slices

The value `withName` stores is a slice header, and `append` may write into the backing
array of the slice it is given. The definitions below keep the backing arrays in an
explicit store; `withName` above is what a new context reads at the time it is made. -/

/-- A slice header `[]string`: the backing array it points to, its length and its
capacity. This package never reslices a name-path, so the offset into the array is 0. -/
structure Slice where
  array : Nat
  len : Nat
  cap : Nat
  deriving DecidableEq, Repr

/-- The store of backing arrays, each as long as its capacity; a header names its array
by position. -/
abbrev Heap := List (List String)

/-- The `nil` slice. -/
def nilSlice : Slice :=
  { array := 0, len := 0, cap := 0 }

/-- The elements of a slice in the store `h`. -/
def Slice.read (h : Heap) (s : Slice) : List String :=
  (h.getD s.array []).take s.len

/-- A context with the slice header stored under `keyNames{}`, if any. -/
structure SliceContext where
  names : Option Slice
  deriving DecidableEq, Repr

/-- `Names(ctx)` as a slice header: the stored header, `nil` when there is none. -/
def NamesSlice (ctx : SliceContext) : Slice :=
  match ctx.names with
  | some names => names
  | none => nilSlice

/-- The elements of `Names(ctx)` as read in the store `h`. -/
def NamesOn (h : Heap) (ctx : SliceContext) : List String :=
  (NamesSlice ctx).read h

/-- The capacity the gc runtime asks for when a slice has to grow (`nextslicecap`, for
capacities below 256): the needed length when that is more than twice the old capacity,
else twice the old capacity. The runtime then rounds up to an allocation size class,
which leaves the capacities 1, 2 and 4 used below as they are. -/
def gcGrowCap (oldCap newLen : Nat) : Nat :=
  if newLen > oldCap + oldCap then newLen else oldCap + oldCap

/-- The built-in `append(s, x)`: with spare capacity the element is written into the
backing array of `s` and the header is `s` with one more element; without, the elements
are copied into a new array of the capacity `grow` chooses. -/
def appendSlice (grow : Nat → Nat → Nat) (h : Heap) (s : Slice) (x : String) : Slice × Heap :=
  if s.len + 1 ≤ s.cap then
    ({ array := s.array, len := s.len + 1, cap := s.cap },
      h.set s.array ((h.getD s.array []).set s.len x))
  else
    let cap := grow s.cap (s.len + 1)
    ({ array := h.length, len := s.len + 1, cap := cap },
      h ++ [s.read h ++ x :: List.replicate (cap - (s.len + 1)) ""])

/-- `withName(ctx, r)` on slices:
`context.WithValue(ctx, keyNames{}, append(Names(ctx), r.Name()))`. -/
def withNameSlice (grow : Nat → Nat → Nat) (h : Heap) (ctx : SliceContext) (r : Runner σ ε) :
    SliceContext × Heap :=
  ({ names := some (appendSlice grow h (NamesSlice ctx) r.Name).1 },
    (appendSlice grow h (NamesSlice ctx) r.Name).2)

/-- A slice header is well formed in a store: it fits its capacity, and unless the
capacity is 0 its array is in the store and as long as the capacity. -/
def Slice.WellFormed (h : Heap) (s : Slice) : Prop :=
  s.len ≤ s.cap ∧ (s.cap = 0 ∨ (s.array < h.length ∧ (h.getD s.array []).length = s.cap))

/-- The context a handler receives from `Run(first, "second", "third")` on the tree of
`TestFlagSet`, with the store: `context.Background()` extended by `first`, `second` and
`third`. -/
def sharedCtx : SliceContext × Heap :=
  let c1 := withNameSlice gcGrowCap [] { names := none } (Runner.set testFirst)
  let c2 := withNameSlice gcGrowCap c1.2 c1.1 (Runner.set testSecond)
  withNameSlice gcGrowCap c2.2 c2.1 (Runner.command testThird)

/-- The unit `a`, with a handler that reads the name-path of its context. -/
def unitA : Command String Unit :=
  DefineCommand "a" "" (some recordFlagSetName)

/-- The unit `b`, with a handler that reads the name-path of its context. -/
def unitB : Command String Unit :=
  DefineCommand "b" "" (some recordFlagSetName)

/-- The context `ctxA`: `sharedCtx` extended with the unit `a`. -/
def sharedCtxA : SliceContext × Heap :=
  withNameSlice gcGrowCap sharedCtx.2 sharedCtx.1 (Runner.command unitA)

/-- The context `ctxB`: the same `sharedCtx` extended with the unit `b`, afterwards. -/
def sharedCtxB : SliceContext × Heap :=
  withNameSlice gcGrowCap sharedCtxA.2 sharedCtx.1 (Runner.command unitB)

/-! ## Basic facts -/

theorem Names_withName (ctx : Context) (r : Runner σ ε) :
    Names (withName ctx r) = Names ctx ++ [r.Name] := rfl

theorem Names_Background : Names Background = [] := rfl

theorem childRunnerLoop_first {pre post : List (Runner σ ε)} {c : Runner σ ε} {sel : String}
    (hpre : ∀ r ∈ pre, r.Name ≠ sel) (hc : c.Name = sel) :
    childRunnerLoop (pre ++ c :: post) sel = some c := by
  induction pre with
  | nil => simp [childRunnerLoop, hc]
  | cons a rest ih =>
    have ha : a.Name ≠ sel := hpre a (List.mem_cons_self _ _)
    have hrest : ∀ r ∈ rest, r.Name ≠ sel := fun r hr => hpre r (List.mem_cons_of_mem _ hr)
    simp [childRunnerLoop, ha, ih hrest]

theorem childRunnerLoop_none {rs : List (Runner σ ε)} {sel : String}
    (h : ∀ r ∈ rs, r.Name ≠ sel) : childRunnerLoop rs sel = none := by
  induction rs with
  | nil => rfl
  | cons a rest ih =>
    have ha : a.Name ≠ sel := h a (List.mem_cons_self _ _)
    have hrest : ∀ r ∈ rest, r.Name ≠ sel := fun r hr => h r (List.mem_cons_of_mem _ hr)
    simp [childRunnerLoop, ha, ih hrest]

theorem childRunnerLoop_some_split {rs : List (Runner σ ε)} {sel : String} {c : Runner σ ε}
    (h : childRunnerLoop rs sel = some c) :
    ∃ pre post, rs = pre ++ c :: post ∧ (∀ r ∈ pre, r.Name ≠ sel) ∧ c.Name = sel := by
  induction rs with
  | nil => simp [childRunnerLoop] at h
  | cons a rest ih =>
    unfold childRunnerLoop at h
    split at h
    · next ha =>
      cases h
      exact ⟨[], rest, rfl, by simp, ha⟩
    · next ha =>
      obtain ⟨pre, post, hsplit, hpre, hc⟩ := ih h
      refine ⟨a :: pre, post, by simp [hsplit], ?_, hc⟩
      intro r hr
      rcases List.mem_cons.mp hr with rfl | hr
      · exact ha
      · exact hpre r hr

theorem childRunner_of_FirstChild {s : Set σ ε} {sel : String} {c : Runner σ ε}
    (h : FirstChild s sel c) : s.childRunner sel = some c := by
  obtain ⟨pre, post, hsplit, hpre, hc⟩ := h
  unfold Set.childRunner
  rw [hsplit]
  exact childRunnerLoop_first hpre hc

theorem FirstChild_of_childRunner {s : Set σ ε} {sel : String} {c : Runner σ ε}
    (h : s.childRunner sel = some c) : FirstChild s sel c :=
  childRunnerLoop_some_split h

theorem exists_FirstChild {s : Set σ ε} {sel : String}
    (h : ∃ r ∈ s.Runners, r.Name = sel) : ∃ c, FirstChild s sel c := by
  cases hc : s.childRunner sel with
  | some c => exact ⟨c, FirstChild_of_childRunner hc⟩
  | none =>
    exfalso
    obtain ⟨r, hr, hname⟩ := h
    unfold Set.childRunner at hc
    generalize s.Runners = rs at hr hc
    induction rs with
    | nil => simp at hr
    | cons a rest ih =>
      unfold childRunnerLoop at hc
      split at hc
      · cases hc
      · next ha =>
        rcases List.mem_cons.mp hr with rfl | hr
        · exact ha hname
        · exact ih hr hc

theorem Set.Run_nil (s : Set σ ε) (ctx : Context) (w : σ) :
    s.Run ctx [] w = (some (.errorSetRun s "no commands selected"), w) := by
  rw [Set.Run]

theorem Set.Run_cons_some {s : Set σ ε} {name : String} {child : Runner σ ε}
    (h : s.childRunner name = some child) (ctx : Context) (rest : List String) (w : σ) :
    s.Run ctx (name :: rest) w = child.Run (withName ctx (.set s)) rest w := by
  rw [Set.Run]
  split
  · next h0 => rw [h] at h0; cases h0
  · next c h0 => rw [h] at h0; cases h0; rfl

theorem Set.Run_cons_none {s : Set σ ε} {name : String}
    (h : s.childRunner name = none) (ctx : Context) (rest : List String) (w : σ) :
    s.Run ctx (name :: rest) w = (some (.errorSetRun s "command not found"), w) := by
  rw [Set.Run]
  split
  · rfl
  · next c h0 => rw [h] at h0; cases h0

theorem Runner.Run_command (c : Command σ ε) (ctx : Context) (args : List String) (w : σ) :
    (Runner.command c).Run ctx args w = c.Run ctx args w := by
  rw [Runner.Run]

theorem Runner.Run_set (s : Set σ ε) (ctx : Context) (args : List String) (w : σ) :
    (Runner.set s).Run ctx args w = s.Run ctx args w := by
  rw [Runner.Run]

theorem Command.Run_some {c : Command σ ε} {fn : CommandFunc σ ε} (h : c.runFn = some fn)
    (ctx : Context) (args : List String) (w : σ) :
    c.Run ctx args w = fn (withName ctx (.command c)) args w := by
  simp [Command.Run, h]

theorem Command.Run_none {c : Command σ ε} (h : c.runFn = none)
    (ctx : Context) (args : List String) (w : σ) :
    c.Run ctx args w =
      (some (.errorString ("no function declared for command: " ++
        stringsJoin (Names ctx ++ [c.Name]) " ")), w) := by
  simp [Command.Run, h, Names_withName, Runner.Name]

theorem Routes.run {g : Set σ ε} {gs : List (Set σ ε)} {sels : List String} {l : Command σ ε}
    (hr : Routes g gs sels l) {fn : CommandFunc σ ε} (hfn : l.runFn = some fn)
    (ctx : Context) (rest : List String) (w : σ) :
    g.Run ctx (sels ++ rest) w =
      fn { names := some (Names ctx ++ ((g :: gs).map Set.Name ++ [l.Name])) } rest w := by
  induction hr generalizing ctx with
  | leaf hfirst =>
    rw [List.singleton_append, Set.Run_cons_some (childRunner_of_FirstChild hfirst),
      Runner.Run_command, Command.Run_some hfn]
    simp [withName, Names, Runner.Name]
  | group hfirst _ ih =>
    rw [List.cons_append, Set.Run_cons_some (childRunner_of_FirstChild hfirst),
      Runner.Run_set, ih hfn]
    simp [withName, Names, Runner.Name]

/-! ## Facts about the renderer -/

theorem foldl_append_join (l : List String) (acc : String) :
    l.foldl (fun r s => r ++ s) acc = acc ++ String.join l := by
  induction l generalizing acc with
  | nil => simp [String.join]
  | cons a rest ih =>
    have hjoin : String.join (a :: rest) = a ++ String.join rest := by
      show List.foldl (fun r s => r ++ s) "" (a :: rest) = _
      rw [List.foldl_cons, ih]
      simp
    rw [List.foldl_cons, ih, hjoin, String.append_assoc]

theorem join_cons (a : String) (l : List String) :
    String.join (a :: l) = a ++ String.join l := by
  show List.foldl (fun r s => r ++ s) "" (a :: l) = _
  rw [List.foldl_cons, foldl_append_join]
  simp

theorem foldl_buffer_eq {α : Type} (f : α → String) (l : List α) (acc : String) :
    l.foldl (fun bb r => bb ++ f r) acc = acc ++ String.join (l.map f) := by
  induction l generalizing acc with
  | nil => simp [String.join]
  | cons a rest ih =>
    rw [List.foldl_cons, ih, List.map_cons, join_cons, String.append_assoc]

theorem length_le_utf8ByteSize (s : String) : s.length ≤ s.utf8ByteSize := by
  cases s with
  | mk cs =>
    simp only [String.length_mk, String.utf8ByteSize_mk]
    induction cs with
    | nil => simp
    | cons c rest ih =>
      have := Char.utf8Size_pos c
      simp only [List.length_cons, String.utf8Len_cons]
      omega

theorem columnWidth_foldl_spec (rs : List (Runner σ ε)) (w0 : Nat) (h0 : 4 ∣ w0) :
    4 ∣ rs.foldl (fun w r =>
        let n := r.Name.utf8ByteSize + 1
        if n > w then (n + 3) / 4 * 4 else w) w0 ∧
    w0 ≤ rs.foldl (fun w r =>
        let n := r.Name.utf8ByteSize + 1
        if n > w then (n + 3) / 4 * 4 else w) w0 ∧
    (∀ r ∈ rs, r.Name.utf8ByteSize + 1 ≤ rs.foldl (fun w r =>
        let n := r.Name.utf8ByteSize + 1
        if n > w then (n + 3) / 4 * 4 else w) w0) ∧
    ∀ m, 4 ∣ m → w0 ≤ m → (∀ r ∈ rs, r.Name.utf8ByteSize + 1 ≤ m) →
      rs.foldl (fun w r =>
        let n := r.Name.utf8ByteSize + 1
        if n > w then (n + 3) / 4 * 4 else w) w0 ≤ m := by
  induction rs generalizing w0 with
  | nil => simp [h0]
  | cons a rest ih =>
    simp only [List.foldl_cons]
    have hstep : 4 ∣ (if a.Name.utf8ByteSize + 1 > w0 then (a.Name.utf8ByteSize + 1 + 3) / 4 * 4 else w0) := by
      split
      · exact Nat.dvd_mul_left 4 _
      · exact h0
    obtain ⟨h1, h2, h3, h4⟩ := ih _ hstep
    refine ⟨h1, ?_, ?_, ?_⟩
    · refine le_trans ?_ h2
      split <;> omega
    · intro r hr
      rcases List.mem_cons.mp hr with rfl | hr
      · refine le_trans ?_ h2
        split <;> omega
      · exact h3 r hr
    · intro m hm hw hall
      apply h4 m hm
      · have ha := hall a (List.mem_cons_self _ _)
        split
        · omega
        · exact hw
      · intro r hr
        exact hall r (List.mem_cons_of_mem _ hr)

theorem length_spaces (n : Nat) : (spaces n).length = n := by
  simp [spaces]

theorem errorSetRun.Error_eq (src : Set σ ε) (msg : String) :
    errorSetRun.Error src msg =
      msg ++ ".\n\nAvailable sub-commands are:\n" ++
        String.join (src.Runners.map fun c =>
          "\n\t" ++ fmtLeftJustify (columnWidth src.Runners) c.Name ++ c.Desc) := by
  unfold errorSetRun.Error
  simp only [foldl_buffer_eq, String.empty_append]

theorem fmtLeftJustify_of_le {wid : Nat} (s : String) (h : wid ≤ 1000000) :
    fmtLeftJustify wid s = s ++ spaces (wid - s.length) := by
  unfold fmtLeftJustify
  rw [if_neg (by omega)]

theorem fmtLeftJustify_of_gt {wid : Nat} (s : String) (h : 1000000 < wid) :
    fmtLeftJustify wid s = "%!(BADWIDTH)" ++ s := by
  unfold fmtLeftJustify
  rw [if_pos h]

theorem columnWidth_bounds (rs : List (Runner σ ε)) :
    4 ∣ columnWidth rs ∧ 12 ≤ columnWidth rs ∧
    (∀ r ∈ rs, r.Name.utf8ByteSize + 1 ≤ columnWidth rs) ∧
    ∀ m, 4 ∣ m → 12 ≤ m → (∀ r ∈ rs, r.Name.utf8ByteSize + 1 ≤ m) → columnWidth rs ≤ m :=
  columnWidth_foldl_spec rs 12 ⟨3, rfl⟩

theorem name_length_lt_columnWidth {rs : List (Runner σ ε)} {c : Runner σ ε} (hc : c ∈ rs) :
    c.Name.length + 1 ≤ columnWidth rs := by
  have h1 := (columnWidth_bounds rs).2.2.1 c hc
  have h2 := length_le_utf8ByteSize c.Name
  omega

theorem columnWidth_le_limit {rs : List (Runner σ ε)}
    (h : ∀ r ∈ rs, r.Name.utf8ByteSize < 1000000) : columnWidth rs ≤ 1000000 :=
  (columnWidth_bounds rs).2.2.2 1000000 ⟨250000, rfl⟩ (by omega)
    (fun r hr => by have := h r hr; omega)

theorem columnWidth_gt_limit {rs : List (Runner σ ε)} {r : Runner σ ε} (hr : r ∈ rs)
    (h : 1000000 ≤ r.Name.utf8ByteSize) : 1000000 < columnWidth rs := by
  have := (columnWidth_bounds rs).2.2.1 r hr
  omega

theorem errorSetRun.Error_eq_padded (src : Set σ ε) (msg : String)
    (hshort : ∀ r ∈ src.Runners, r.Name.utf8ByteSize < 1000000) :
    errorSetRun.Error src msg =
      msg ++ ".\n\nAvailable sub-commands are:\n" ++
        String.join (src.Runners.map fun c =>
          "\n\t" ++ (c.Name ++ spaces (columnWidth src.Runners - c.Name.length)) ++ c.Desc) := by
  rw [errorSetRun.Error_eq]
  simp only [fmtLeftJustify_of_le _ (columnWidth_le_limit hshort)]

theorem utf8ByteSize_replicate_a (n : Nat) :
    (String.mk (List.replicate n 'a')).utf8ByteSize = n := by
  induction n with
  | zero => rfl
  | succ k ih =>
    rw [String.utf8ByteSize_mk] at ih ⊢
    rw [List.replicate_succ, String.utf8Len_cons, ih]
    rfl

theorem utf8ByteSize_longName : longName.utf8ByteSize = 1000000 :=
  utf8ByteSize_replicate_a 1000000

theorem length_longName : longName.length = 1000000 := by
  unfold longName
  rw [String.length_mk, List.length_replicate]

theorem columnWidth_testLongName : columnWidth testLongName.Runners = 1000004 := by
  have hrs : testLongName.Runners =
      [.command (DefineCommand longName "d" none), .command (DefineCommand "x" "E" none)] := rfl
  obtain ⟨hdvd, _, hall, hleast⟩ := columnWidth_bounds testLongName.Runners
  have hlong := hall (.command (DefineCommand longName "d" none)) (by rw [hrs]; simp)
  have hname : (Runner.command (DefineCommand longName "d" none) : Runner Unit Unit).Name =
      longName := rfl
  rw [hname, utf8ByteSize_longName] at hlong
  have hle := hleast 1000004 ⟨250001, rfl⟩ (by omega) (by
    intro r hr
    rw [hrs] at hr
    rcases List.mem_cons.mp hr with rfl | hr
    · rw [hname, utf8ByteSize_longName]
      omega
    · rcases List.mem_cons.mp hr with rfl | hr
      · decide
      · simp at hr)
  obtain ⟨k, hk⟩ := hdvd
  omega

theorem getLast?_line (pre mid desc : List Char) (p : Char) (hpre : pre.getLast? = some p)
    (hp : p ≠ '\n') (hmid : '\n' ∉ mid) (hdesc : '\n' ∉ desc) :
    (pre ++ mid ++ desc).getLast? ≠ some '\n' := by
  intro hlast
  rw [List.getLast?_append, List.getLast?_append, hpre] at hlast
  cases hd : desc.getLast? with
  | some x =>
    rw [hd] at hlast
    simp only [Option.or_some, Option.some.injEq] at hlast
    subst hlast
    exact hdesc (List.mem_of_getLast?_eq_some hd)
  | none =>
    rw [hd, Option.none_or] at hlast
    cases hm : mid.getLast? with
    | some y =>
      rw [hm] at hlast
      simp only [Option.or_some, Option.some.injEq] at hlast
      subst hlast
      exact hmid (List.mem_of_getLast?_eq_some hm)
    | none =>
      rw [hm, Option.none_or] at hlast
      exact hp (Option.some.inj hlast)

/-! ## Routing to a leaf -/

/-- C1: when routing from the root group `g` passes through the groups `g :: gs`, the
first `gs.length + 1` arguments each naming the first matching child, and reaches a leaf
`l` whose handler `fn` is set, the top-level `Run` is the call of `fn` on a context whose
name-path is the names of `g :: gs` followed by the name of `l`, on the arguments left
after dropping those `gs.length + 1` selectors, in the same world; `Run` returns what
that call returns. -/
theorem run_reaches_leaf_handler (g : Set σ ε) (gs : List (Set σ ε)) (l : Command σ ε)
    (fn : CommandFunc σ ε) (args : List String) (w : σ)
    (hroute : Routes g gs (args.take (gs.length + 1)) l) (hfn : l.runFn = some fn) :
    ∃ ctx, Names ctx = (g :: gs).map Set.Name ++ [l.Name] ∧
      Run (.set g) args w = fn ctx (args.drop (gs.length + 1)) w := by
  refine ⟨{ names := some ((g :: gs).map Set.Name ++ [l.Name]) }, rfl, ?_⟩
  have hrun := Routes.run hroute hfn Background (args.drop (gs.length + 1)) w
  rw [List.take_append_drop] at hrun
  unfold Run
  rw [Runner.Run_set, hrun]
  simp [Names_Background]

/-- C1, on the tree of `TestSet`: `user add -email x@example.com` reaches the leaf `add`
with the name-path `set user add` and the arguments `-email x@example.com`. -/
theorem run_reaches_leaf_handler_witness :
    ∃ ctx, Names ctx = ["set", "user", "add"] ∧
      Run (.set testSet) ["user", "add", "-email", "x@example.com"] ([], []) =
        record ctx ["-email", "x@example.com"] ([], []) :=
  run_reaches_leaf_handler testSet [testUser] testAdd record
    ["user", "add", "-email", "x@example.com"] ([], [])
    (.group ⟨[], _, rfl, by simp, rfl⟩ (.leaf ⟨[_], _, rfl, by decide, rfl⟩)) rfl

/-- C2: when the first argument is the name of some child of the group `s`, there is a
first such child, and `s.Run ctx (a :: rest)` is the `Run` of that first child on the
context extended with the name of `s` itself and on `rest`: result and world are those of
the child, so an error of the child comes back as it is. -/
theorem set_run_delegates_to_first_child (s : Set σ ε) (ctx : Context) (a : String)
    (rest : List String) (w : σ) (hsome : ∃ r ∈ s.Runners, r.Name = a) :
    (∃ c, FirstChild s a c) ∧
      Names (withName ctx (.set s)) = Names ctx ++ [s.Name] ∧
      ∀ c, FirstChild s a c →
        s.Run ctx (a :: rest) w = c.Run (withName ctx (.set s)) rest w :=
  ⟨exists_FirstChild hsome, rfl,
    fun _ hc => Set.Run_cons_some (childRunner_of_FirstChild hc) ctx rest w⟩

/-- C2, on the tree of `TestSet`: `set` hands `user add` over to its child `user`. -/
theorem set_run_delegates_to_first_child_witness :
    (∃ c, FirstChild testSet "user" c) ∧
      Names (withName Background (.set testSet)) = Names Background ++ [testSet.Name] ∧
      ∀ c, FirstChild testSet "user" c →
        testSet.Run Background ("user" :: ["add"]) ([], []) =
          c.Run (withName Background (.set testSet)) ["add"] ([], []) :=
  set_run_delegates_to_first_child testSet Background "user" ["add"] ([], [])
    ⟨.set testUser, by simp [testSet, DefineSet, Set.Runners], rfl⟩

/-! ## Leaves, and failures of groups -/

/-- C5: a leaf `c` without handler fails, for every context and every argument list, with
an error whose message is `no function declared for command: ` followed by the recorded
name-path and the name of `c`, joined by single spaces, and leaves the world as it was;
run at top level on its own, the message ends in the name of `c` alone. -/
theorem command_run_without_handler (c : Command σ ε) (ctx : Context) (args : List String)
    (w : σ) (render : ε → String) (hnil : c.runFn = none) :
    (∃ e, c.Run ctx args w = (some e, w) ∧
      e.Error render =
        "no function declared for command: " ++ stringsJoin (Names ctx ++ [c.Name]) " ") ∧
    (∃ e, Run (.command c) args w = (some e, w) ∧
      e.Error render = "no function declared for command: " ++ c.Name) := by
  refine ⟨⟨_, Command.Run_none hnil ctx args w, rfl⟩,
    ⟨.errorString ("no function declared for command: " ++ c.Name), ?_, rfl⟩⟩
  unfold Run
  rw [Runner.Run_command, Command.Run_none hnil]
  rfl

/-- C5, on the leaf of `TestCommandNil`: the message is
`no function declared for command: foo`. -/
theorem command_run_without_handler_witness :
    (∃ e, testFoo.Run { names := some ["fail"] } ["x"] () = (some e, ()) ∧
      e.Error (fun _ => "") =
        "no function declared for command: " ++ stringsJoin (["fail"] ++ ["foo"]) " ") ∧
    (∃ e, Run (.command testFoo) ["x"] () = (some e, ()) ∧
      e.Error (fun _ => "") = "no function declared for command: " ++ "foo") :=
  command_run_without_handler testFoo { names := some ["fail"] } ["x"] () (fun _ => "") rfl

/-- C6: a leaf `c` with handler `fn` runs as the call of `fn` on a context whose name-path
is that of `ctx` followed by the name of `c`, on the same argument list and in the same
world; result and world are those of `fn`. -/
theorem command_run_invokes_handler (c : Command σ ε) (fn : CommandFunc σ ε) (ctx : Context)
    (args : List String) (w : σ) (hfn : c.runFn = some fn) :
    ∃ ctx', Names ctx' = Names ctx ++ [c.Name] ∧ c.Run ctx args w = fn ctx' args w :=
  ⟨withName ctx (.command c), rfl, Command.Run_some hfn ctx args w⟩

/-- C6, on the leaf `add` of `TestSet`. -/
theorem command_run_invokes_handler_witness :
    ∃ ctx', Names ctx' = Names { names := some ["set", "user"] } ++ [testAdd.Name] ∧
      testAdd.Run { names := some ["set", "user"] } ["-email", "x@example.com"] ([], []) =
        record ctx' ["-email", "x@example.com"] ([], []) :=
  command_run_invokes_handler testAdd record { names := some ["set", "user"] }
    ["-email", "x@example.com"] ([], []) rfl

/-- C3: a group run with no arguments, whatever its children and the context, fails with
the resolution error that holds the group itself and the reason `no commands selected`,
and leaves the world as it was, so no handler has run; the rendered message is
`no commands selected.` followed by the rest of the header and the listing. -/
theorem set_run_no_args (s : Set σ ε) (ctx : Context) (w : σ) (render : ε → String) :
    ∃ e, s.Run ctx [] w = (some e, w) ∧ e = .errorSetRun s "no commands selected" ∧
      e.Error render = "no commands selected." ++ ("\n\nAvailable sub-commands are:\n" ++
        String.join (s.Runners.map fun c =>
          "\n\t" ++ fmtLeftJustify (columnWidth s.Runners) c.Name ++ c.Desc)) := by
  refine ⟨_, Set.Run_nil s ctx w, rfl, ?_⟩
  show errorSetRun.Error s "no commands selected" = _
  rw [errorSetRun.Error_eq, ← String.append_assoc]
  rfl

/-- C4: a group run with a first argument that names none of its children (any first
argument when it has no children) fails with the resolution error that holds the group
itself and the reason `command not found`, and leaves the world as it was; the rendered
message is `command not found.`, the rest of the header, and one line for each child of
the group, in definition order. -/
theorem set_run_not_found (s : Set σ ε) (ctx : Context) (a : String) (rest : List String)
    (w : σ) (render : ε → String) (hnone : ∀ r ∈ s.Runners, r.Name ≠ a) :
    ∃ e, s.Run ctx (a :: rest) w = (some e, w) ∧ e = .errorSetRun s "command not found" ∧
      e.Error render = "command not found." ++ ("\n\nAvailable sub-commands are:\n" ++
        String.join (s.Runners.map fun c =>
          "\n\t" ++ fmtLeftJustify (columnWidth s.Runners) c.Name ++ c.Desc)) := by
  refine ⟨_, Set.Run_cons_none (childRunnerLoop_none hnone) ctx rest w, rfl, ?_⟩
  show errorSetRun.Error s "command not found" = _
  rw [errorSetRun.Error_eq, ← String.append_assoc]
  rfl

/-- C4, on the tree of `TestSetFails` with the selector `foo`. -/
theorem set_run_not_found_witness :
    ∃ e, testFail.Run Background ("foo" :: []) () = (some e, ()) ∧
      e = .errorSetRun testFail "command not found" ∧
      e.Error (fun _ => "") = "command not found." ++ ("\n\nAvailable sub-commands are:\n" ++
        String.join (testFail.Runners.map fun c =>
          "\n\t" ++ fmtLeftJustify (columnWidth testFail.Runners) c.Name ++ c.Desc)) :=
  set_run_not_found testFail Background "foo" [] () (fun _ => "") (by decide)

/-! ## The rendered message -/

/-- The rendered message when every child name is shorter than 1000000 bytes: the reason
`r`, then `.\n\nAvailable sub-commands are:\n`, then for each child in definition order
`\n\t`, the name followed by spaces, and the description; name and spaces together are
as long as the column width; and when there is a child, the header is followed by an
empty line and the tab of the first child line. -/
theorem error_message_format_of_short_names (src : Set σ ε) (r : String)
    (hshort : ∀ c ∈ src.Runners, c.Name.utf8ByteSize < 1000000) :
    errorSetRun.Error src r =
      r ++ ".\n\nAvailable sub-commands are:\n" ++
        String.join (src.Runners.map fun c =>
          "\n\t" ++ (c.Name ++ spaces (columnWidth src.Runners - c.Name.length)) ++ c.Desc) ∧
    (∀ c ∈ src.Runners,
      (c.Name ++ spaces (columnWidth src.Runners - c.Name.length)).length =
        columnWidth src.Runners) ∧
    (src.Runners ≠ [] → ∃ t,
      errorSetRun.Error src r = r ++ ".\n\nAvailable sub-commands are:\n\n\t" ++ t) := by
  refine ⟨errorSetRun.Error_eq_padded src r hshort, ?_, ?_⟩
  · intro c hc
    have := name_length_lt_columnWidth hc
    rw [String.length_append, length_spaces]
    omega
  · intro hne
    rw [errorSetRun.Error_eq]
    cases hrs : src.Runners with
    | nil => exact absurd hrs hne
    | cons c rest =>
      refine ⟨fmtLeftJustify (columnWidth (c :: rest)) c.Name ++ c.Desc ++
        String.join (rest.map fun d =>
          "\n\t" ++ fmtLeftJustify (columnWidth (c :: rest)) d.Name ++ d.Desc), ?_⟩
      rw [List.map_cons, join_cons]
      apply String.ext
      simp [String.data_append]

/-- The message on the tree of `TestSetFails` is the string the test expects, with an
empty line between the header and the first child line. -/
theorem error_message_on_TestSetFails :
    errorSetRun.Error testFail "command not found" =
      "command not found.\n\nAvailable sub-commands are:\n\n\tlist        list all entries\n\tadd         add a new entry\n\tdelete      delete an entry\n\titem        operate items" := by
  decide

/-- C7 does not hold on the code when a child name has 1000000 bytes or more: the column
width then exceeds the largest width `fmt` accepts, and every child line is `\n\t`,
`%!(BADWIDTH)`, the name and the description, without padding. Evaluated on the error
that `Run` returns for a group with such a child and no arguments. -/
theorem error_message_badwidth :
    Run (.set testLongName) [] () =
      (some (.errorSetRun testLongName "no commands selected"), ()) ∧
    columnWidth testLongName.Runners = 1000004 ∧
    errorSetRun.Error testLongName "no commands selected" =
      "no commands selected.\n\nAvailable sub-commands are:\n" ++
        ("\n\t%!(BADWIDTH)" ++ longName ++ "d" ++ "\n\t%!(BADWIDTH)xE") := by
  refine ⟨?_, columnWidth_testLongName, ?_⟩
  · unfold Run
    rw [Runner.Run_set, Set.Run_nil]
  · have hw : 1000000 < columnWidth testLongName.Runners := by
      rw [columnWidth_testLongName]; omega
    have hrs : testLongName.Runners =
        [.command (DefineCommand longName "d" none),
          .command (DefineCommand "x" "E" none)] := rfl
    rw [errorSetRun.Error_eq]
    simp only [fmtLeftJustify_of_gt _ hw]
    rw [hrs]
    simp only [List.map_cons, List.map_nil, join_cons]
    have h1 : (Runner.command (DefineCommand longName "d" none) : Runner Unit Unit).Name =
        longName := rfl
    have h2 : (Runner.command (DefineCommand longName "d" none) : Runner Unit Unit).Desc =
        "d" := rfl
    have h3 : (Runner.command (DefineCommand "x" "E" none) : Runner Unit Unit).Name = "x" := rfl
    have h4 : (Runner.command (DefineCommand "x" "E" none) : Runner Unit Unit).Desc = "E" := rfl
    rw [h1, h2, h3, h4]
    have e1 : ("no commands selected" : String) ++ ".\n\nAvailable sub-commands are:\n" =
        "no commands selected.\n\nAvailable sub-commands are:\n" := by decide
    have e2 : ("\n\t" : String) ++ ("%!(BADWIDTH)" ++ "x") ++ "E" ++ String.join [] =
        "\n\t%!(BADWIDTH)xE" := by decide
    have e3 : ("\n\t%!(BADWIDTH)" : String) = "\n\t" ++ "%!(BADWIDTH)" := by decide
    rw [e1, e2, e3]
    simp only [String.append_assoc]


/-- C8 fails as stated, with lengths counted in characters: the only child name of
`testWide` has 4 characters, so every name has at most 11 characters and 12 is a
multiple of 4 that is at least 12 and at least the longest name plus one; but the name
has 12 bytes and the width is 16. -/
theorem columnWidth_counts_bytes :
    (∀ r ∈ testWide.Runners, r.Name.length ≤ 11) ∧
    (∀ r ∈ testWide.Runners, r.Name.length + 1 ≤ 12) ∧
    (∀ r ∈ testWide.Runners, r.Name.length = 4 ∧ r.Name.utf8ByteSize = 12) ∧
    columnWidth testWide.Runners = 16 ∧
    columnWidth testWide.Runners ≠ 12 := by
  decide

/-- C8, amended: the column width is the smallest multiple of 4 that is at least 12 and at
least the length of every child name plus one, the length of a name being its Go `len`,
the number of bytes of its UTF-8 text; it is 12 when every name has at most 11 bytes, 16
when the longest name has 12 to 15 bytes, and it is the same for every reordering of the
children. -/
theorem columnWidth_spec (rs : List (Runner σ ε)) :
    (4 ∣ columnWidth rs ∧ 12 ≤ columnWidth rs ∧
      (∀ r ∈ rs, r.Name.utf8ByteSize + 1 ≤ columnWidth rs) ∧
      ∀ m, 4 ∣ m → 12 ≤ m → (∀ r ∈ rs, r.Name.utf8ByteSize + 1 ≤ m) → columnWidth rs ≤ m) ∧
    ((∀ r ∈ rs, r.Name.utf8ByteSize ≤ 11) → columnWidth rs = 12) ∧
    ((∀ r ∈ rs, r.Name.utf8ByteSize ≤ 15) → (∃ r ∈ rs, 12 ≤ r.Name.utf8ByteSize) →
      columnWidth rs = 16) ∧
    (∀ rs', rs.Perm rs' → columnWidth rs' = columnWidth rs) := by
  obtain ⟨hdvd, hmin, hall, hleast⟩ := columnWidth_bounds rs
  refine ⟨⟨hdvd, hmin, hall, hleast⟩, ?_, ?_, ?_⟩
  · intro h11
    have := hleast 12 ⟨3, rfl⟩ (le_refl _) (fun r hr => by have := h11 r hr; omega)
    omega
  · intro h15 hex
    obtain ⟨r, hr, h12⟩ := hex
    have hle := hleast 16 ⟨4, rfl⟩ (by omega) (fun r hr => by have := h15 r hr; omega)
    have hge := hall r hr
    obtain ⟨k, hk⟩ := hdvd
    omega
  · intro rs' hperm
    obtain ⟨hdvd', hmin', hall', hleast'⟩ := columnWidth_bounds rs'
    apply Nat.le_antisymm
    · exact hleast' _ hdvd hmin (fun r hr => hall r (hperm.mem_iff.mpr hr))
    · exact hleast _ hdvd' hmin' (fun r hr => hall' r (hperm.mem_iff.mp hr))

/-- C8, amended, on the tree of `TestAutoWidth`: the longest name, `verylongname`, is 12 long, its
candidate 13 is rounded up, and the width is 16. -/
theorem columnWidth_spec_witness : columnWidth testFailLong.Runners = 16 :=
  (columnWidth_spec testFailLong.Runners).2.2.1 (by decide) (by decide)

/-- The alignment when every child name is shorter than 1000000 bytes: the column width
is a multiple of 4, and every child line is, after its newline, a tab, the name, at
least one space, and then the description, where tab, name and spaces together always
count one plus the column width characters. -/
theorem listing_aligned_of_short_names (src : Set σ ε) (msg : String)
    (hshort : ∀ c ∈ src.Runners, c.Name.utf8ByteSize < 1000000) :
    4 ∣ columnWidth src.Runners ∧
    errorSetRun.Error src msg =
      msg ++ ".\n\nAvailable sub-commands are:\n" ++
        String.join (src.Runners.map fun c =>
          "\n" ++ ("\t" ++ c.Name ++ spaces (columnWidth src.Runners - c.Name.length)) ++
            c.Desc) ∧
    ∀ c ∈ src.Runners,
      1 ≤ columnWidth src.Runners - c.Name.length ∧
      ("\t" ++ c.Name ++ spaces (columnWidth src.Runners - c.Name.length)).length =
        1 + columnWidth src.Runners := by
  refine ⟨(columnWidth_bounds src.Runners).1, ?_, ?_⟩
  · rw [errorSetRun.Error_eq_padded src msg hshort]
    congr 2
  · intro c hc
    have := name_length_lt_columnWidth hc
    refine ⟨by omega, ?_⟩
    rw [String.length_append, String.length_append, length_spaces]
    have : "\t".length = 1 := rfl
    omega

/-- The message on the tree of `TestAutoWidth` is the string the test expects: `short` is
padded to 16 columns like `verylongname`. -/
theorem error_message_on_TestAutoWidth :
    errorSetRun.Error testFailLong "no commands selected" =
      "no commands selected.\n\nAvailable sub-commands are:\n\n\tverylongname    long name command\n\tshort           short name command" := by
  decide

/-- C9 does not hold on the code when a child name has 1000000 bytes or more: no child
line is padded. With the children `longName` and `x`, the name `x` is followed by its
description `E` at once, the two descriptions start 1000013 and 14 characters into
their lines, and neither is one plus the column width, 1000005. -/
theorem listing_badwidth_unaligned :
    errorSetRun.Error testLongName "no commands selected" =
      "no commands selected.\n\nAvailable sub-commands are:\n" ++
        String.join ["\n" ++ ("\t%!(BADWIDTH)" ++ longName) ++ "d",
          "\n" ++ ("\t%!(BADWIDTH)" ++ "x") ++ "E"] ∧
    ("\t%!(BADWIDTH)" ++ longName).length = 1000013 ∧
    ("\t%!(BADWIDTH)" ++ "x").length = 14 ∧
    1 + columnWidth testLongName.Runners = 1000005 := by
  refine ⟨?_, ?_, by decide, by rw [columnWidth_testLongName]⟩
  · have hw : 1000000 < columnWidth testLongName.Runners := by
      rw [columnWidth_testLongName]; omega
    have hrs : testLongName.Runners =
        [.command (DefineCommand longName "d" none),
          .command (DefineCommand "x" "E" none)] := rfl
    rw [errorSetRun.Error_eq]
    simp only [fmtLeftJustify_of_gt _ hw]
    rw [hrs]
    simp only [List.map_cons, List.map_nil]
    have h1 : (Runner.command (DefineCommand longName "d" none) : Runner Unit Unit).Name =
        longName := rfl
    have h2 : (Runner.command (DefineCommand longName "d" none) : Runner Unit Unit).Desc =
        "d" := rfl
    have h3 : (Runner.command (DefineCommand "x" "E" none) : Runner Unit Unit).Name = "x" := rfl
    have h4 : (Runner.command (DefineCommand "x" "E" none) : Runner Unit Unit).Desc = "E" := rfl
    rw [h1, h2, h3, h4]
    have e1 : ("no commands selected" : String) ++ ".\n\nAvailable sub-commands are:\n" =
        "no commands selected.\n\nAvailable sub-commands are:\n" := by decide
    have e3 : ("\t%!(BADWIDTH)" : String) = "\t" ++ "%!(BADWIDTH)" := by decide
    have e4 : ("\n\t" : String) = "\n" ++ "\t" := by decide
    rw [e1, e3, e4]
    simp only [String.append_assoc]
  · rw [String.length_append, length_longName]
    rfl


/-- C10 fails as stated for a group without children: routing `item` through the tree of
`TestSetFails` reaches the empty group `item`, whose resolution error renders as the
header alone, and the last character of the header is a newline. -/
theorem error_message_trailing_newline_without_children :
    (∀ c ∈ testItem.Runners, '\n' ∉ c.Name.data ∧ '\n' ∉ c.Desc.data) ∧
    Run (.set testFail) ["item"] () =
      (some (.errorSetRun testItem "no commands selected"), ()) ∧
    errorSetRun.Error testItem "no commands selected" =
      "no commands selected.\n\nAvailable sub-commands are:\n" ∧
    (errorSetRun.Error testItem "no commands selected").data.getLast? = some '\n' := by
  refine ⟨by decide, ?_, by decide, by decide⟩
  have hchild : testFail.childRunner "item" = some (.set testItem) :=
    childRunner_of_FirstChild ⟨[_, _, _], [], rfl, by decide, rfl⟩
  unfold Run
  rw [Runner.Run_set, Set.Run_cons_some hchild, Runner.Run_set, Set.Run_nil]

/-- C10, amended: for a group with at least one child, whose child names and descriptions
contain no newline, the rendered message of a resolution error, for either reason and
indeed for any reason, does not end in a newline. -/
theorem error_message_no_trailing_newline (src : Set σ ε) (msg : String)
    (hne : src.Runners ≠ [])
    (hclean : ∀ c ∈ src.Runners, '\n' ∉ c.Name.data ∧ '\n' ∉ c.Desc.data) :
    (errorSetRun.Error src msg).data.getLast? ≠ some '\n' := by
  rw [errorSetRun.Error_eq]
  rcases List.eq_nil_or_concat src.Runners with hnil | ⟨init, c, hrs⟩
  · exact absurd hnil hne
  · have hc : c ∈ src.Runners := by rw [hrs]; simp
    obtain ⟨hname, hdesc⟩ := hclean c hc
    generalize columnWidth src.Runners = w
    rw [hrs]
    have hline : ("\n\t" ++ fmtLeftJustify w c.Name ++ c.Desc).data.getLast? ≠ some '\n' := by
      by_cases hw : w ≤ 1000000
      · rw [fmtLeftJustify_of_le _ hw]
        have hmid : '\n' ∉ c.Name.data ++ (spaces (w - c.Name.length)).data := by
          intro hin
          rcases List.mem_append.mp hin with h | h
          · exact hname h
          · have := List.eq_of_mem_replicate h
            exact absurd this (by decide)
        have := getLast?_line ['\n', '\t'] _ c.Desc.data '\t' rfl (by decide) hmid hdesc
        simpa [String.data_append] using this
      · rw [fmtLeftJustify_of_gt _ (by omega)]
        have := getLast?_line "\n\t%!(BADWIDTH)".data c.Name.data c.Desc.data ')' (by decide)
          (by decide) hname hdesc
        have e : ("\n\t%!(BADWIDTH)" : String).data =
            ("\n\t" : String).data ++ ("%!(BADWIDTH)" : String).data := by decide
        rw [e] at this
        simpa [String.data_append] using this
    intro hlast
    apply hline
    simp only [List.concat_eq_append, List.map_append, List.map_cons, List.map_nil,
      String.data_append, String.data_join, List.flatten_append, List.flatten_cons,
      List.flatten_nil, List.append_nil] at hlast
    rw [List.getLast?_append] at hlast
    cases hl : ("\n\t" ++ fmtLeftJustify w c.Name ++ c.Desc).data.getLast? with
    | none =>
      rw [List.getLast?_eq_none_iff] at hl
      simp [String.data_append] at hl
    | some x =>
      simp only [String.data_append] at hl
      rw [List.getLast?_append, hl] at hlast
      simp only [Option.or_some, Option.some.injEq] at hlast
      rw [hlast]

/-- C10, amended, on the tree of `TestSetFails`. -/
theorem error_message_no_trailing_newline_witness :
    (errorSetRun.Error testFail "command not found").data.getLast? ≠ some '\n' :=
  error_message_no_trailing_newline testFail "command not found"
    (by simp [testFail, DefineSet, Set.Runners]) (by decide)

/-! ## First match -/

theorem childRunnerLoop_eq_find (rs : List (Runner σ ε)) (sel : String) :
    childRunnerLoop rs sel = rs.find? (fun r => r.Name == sel) := by
  induction rs with
  | nil => rfl
  | cons a rest ih =>
    unfold childRunnerLoop
    by_cases ha : a.Name = sel
    · simp [ha]
    · simp [ha, ih]

theorem FirstChild_of_least_index {s : Set σ ε} {sel : String} (i : Nat)
    (hi : i < s.Runners.length) (hname : (s.Runners.get ⟨i, hi⟩).Name = sel)
    (hleast : ∀ j (hj : j < s.Runners.length), (s.Runners.get ⟨j, hj⟩).Name = sel → i ≤ j) :
    FirstChild s sel (s.Runners.get ⟨i, hi⟩) := by
  refine ⟨s.Runners.take i, s.Runners.drop (i + 1), ?_, ?_, hname⟩
  · simp
  · intro r hr hrn
    obtain ⟨j, hj, hget⟩ := List.getElem_of_mem hr
    have hj' : j < i := by
      have := hj
      simp only [List.length_take] at this
      omega
    have hjl : j < s.Runners.length := by omega
    have hge := hleast j hjl (by
      rw [List.getElem_take] at hget
      simp only [List.get_eq_getElem]
      rw [hget]; exact hrn)
    omega

/-- C11: when the child at index `i` is named by the selector and no child at a smaller
index is, whatever further children carry the same name, the lookup finds the child at
index `i` and `Run` is the `Run` of that child, on the context extended with the name of
the group and on the remaining arguments; the lookup is the first match in the list
`Runners`, the same list, in the same order, that the rendered error lists. -/
theorem run_routes_to_first_duplicate (s : Set σ ε) (ctx : Context) (a : String)
    (rest : List String) (w : σ) (i : Nat) (hi : i < s.Runners.length)
    (hname : (s.Runners.get ⟨i, hi⟩).Name = a)
    (hleast : ∀ j (hj : j < s.Runners.length), (s.Runners.get ⟨j, hj⟩).Name = a → i ≤ j) :
    s.childRunner a = some (s.Runners.get ⟨i, hi⟩) ∧
    s.Run ctx (a :: rest) w = (s.Runners.get ⟨i, hi⟩).Run (withName ctx (.set s)) rest w ∧
    s.childRunner a = s.Runners.find? (fun r => r.Name == a) ∧
    ∀ msg, errorSetRun.Error s msg =
      msg ++ ".\n\nAvailable sub-commands are:\n" ++
        String.join (s.Runners.map fun c =>
          "\n\t" ++ fmtLeftJustify (columnWidth s.Runners) c.Name ++ c.Desc) := by
  have hfirst := childRunner_of_FirstChild (FirstChild_of_least_index i hi hname hleast)
  exact ⟨hfirst, Set.Run_cons_some hfirst ctx rest w, childRunnerLoop_eq_find _ _,
    fun msg => errorSetRun.Error_eq s msg⟩

/-- C11, on a group whose second and third child are both named `dup`: the handler of the
second child runs, not the one of the third. -/
theorem run_routes_to_first_duplicate_witness :
    testDup.Run Background ["dup", "x"] 7 = (none, 1) := by
  have h := (run_routes_to_first_duplicate testDup Background "dup" ["x"] 7 1
    (by decide) (by decide) (by decide)).2.1
  rw [h]
  show (Runner.command (DefineCommand "dup" "first" (some (mark 1)))).Run _ _ _ = _
  rw [Runner.Run_command]
  rfl

/-! ## The flag set of a context -/

/-- C14: the name of the flag set made by `FlagSet(ctx)` is the name-path of `ctx` joined by
single spaces; it is the empty string when `ctx` records no path; and the context a
handler receives after routing through the groups `g :: gs` to the leaf `l` gives a flag
set named by the names of `g :: gs` and of `l`, joined by single spaces. -/
theorem flagSet_name (ctx : Context) :
    (FlagSet ctx).Name = stringsJoin (Names ctx) " " ∧
    (Names ctx = [] → (FlagSet ctx).Name = "") ∧
    ∀ (σ ε : Type) (g : Set σ ε) (gs : List (Set σ ε)) (l : Command σ ε)
      (fn : CommandFunc σ ε) (args : List String) (w : σ),
      Routes g gs (args.take (gs.length + 1)) l → l.runFn = some fn →
      ∃ ctxL, Run (.set g) args w = fn ctxL (args.drop (gs.length + 1)) w ∧
        (FlagSet ctxL).Name = stringsJoin ((g :: gs).map Set.Name ++ [l.Name]) " " := by
  refine ⟨rfl, ?_, ?_⟩
  · intro h
    show stringsJoin (Names ctx) " " = ""
    rw [h]
    rfl
  · intro σ ε g gs l fn args w hroute hfn
    refine ⟨{ names := some ((g :: gs).map Set.Name ++ [l.Name]) }, ?_, rfl⟩
    have hrun := Routes.run hroute hfn Background (args.drop (gs.length + 1)) w
    rw [List.take_append_drop] at hrun
    unfold Run
    rw [Runner.Run_set, hrun]
    simp [Names_Background]

/-- C14, on `TestFlagSet`: no name for `context.Background()`, and `first second third`
inside the handler of `third`. -/
theorem flagSet_name_witness :
    (FlagSet Background).Name = "" ∧
    Run (.set testFirst) ["second", "third"] "" = (none, "first second third") := by
  obtain ⟨_, hempty, hrouted⟩ := flagSet_name Background
  refine ⟨hempty rfl, ?_⟩
  obtain ⟨ctxL, hrun, hname⟩ := hrouted String Unit testFirst [testSecond] testThird
    recordFlagSetName ["second", "third"] ""
    (.group ⟨[], _, rfl, by simp, rfl⟩ (.leaf ⟨[], _, rfl, by simp, rfl⟩)) rfl
  rw [hrun]
  show (none, (FlagSet ctxL).Name) = _
  rw [hname]
  rfl

/-! ## Facts about routes -/

theorem Runner.route_command (c : Command σ ε) (args : List String) :
    Runner.route (.command c) args = ([], .command c) := by
  cases args <;> rfl

theorem Runner.route_set_nil (s : Set σ ε) :
    Runner.route (.set s) [] = ([], .set s) := rfl

theorem Runner.route_set_none {s : Set σ ε} {name : String} (h : s.childRunner name = none)
    (rest : List String) : Runner.route (.set s) (name :: rest) = ([], .set s) := by
  simp [Runner.route, h]

theorem Runner.route_set_some {s : Set σ ε} {name : String} {child : Runner σ ε}
    (h : s.childRunner name = some child) (rest : List String) :
    Runner.route (.set s) (name :: rest) = (s :: (child.route rest).1, (child.route rest).2) := by
  simp [Runner.route, h]

theorem Names_passGroups (ctx : Context) (gs : List (Set σ ε)) :
    Names (passGroups ctx gs) = Names ctx ++ gs.map Set.Name := by
  induction gs generalizing ctx with
  | nil => simp [passGroups]
  | cons g rest ih =>
    have := ih (withName ctx (.set g))
    simp only [passGroups, List.foldl_cons] at this ⊢
    rw [this, Names_withName]
    simp [Runner.Name]

theorem Runner.Run_eq_route (r : Runner σ ε) (ctx : Context) (args : List String) (w : σ) :
    r.Run ctx args w =
      (r.route args).2.Run (passGroups ctx (r.route args).1)
        (args.drop (r.route args).1.length) w := by
  induction args generalizing r ctx with
  | nil =>
    cases r with
    | command c => rw [Runner.route_command]; rfl
    | set s => rw [Runner.route_set_nil]; rfl
  | cons a rest ih =>
    cases r with
    | command c => rw [Runner.route_command]; rfl
    | set s =>
      cases hc : s.childRunner a with
      | none => rw [Runner.route_set_none hc]; rfl
      | some child =>
        rw [Runner.route_set_some hc, Runner.Run_set, Set.Run_cons_some hc, ih]
        rfl

theorem Runner.route_length_le (r : Runner σ ε) (args : List String) :
    (r.route args).1.length ≤ args.length := by
  induction args generalizing r with
  | nil =>
    cases r with
    | command c => simp [Runner.route_command]
    | set s => simp [Runner.route_set_nil]
  | cons a rest ih =>
    cases r with
    | command c => simp [Runner.route_command]
    | set s =>
      cases hc : s.childRunner a with
      | none => simp [Runner.route_set_none hc]
      | some child =>
        have := ih child
        simp [Runner.route_set_some hc]
        omega

theorem depth_le_depthList {rs : List (Runner σ ε)} {r : Runner σ ε} (h : r ∈ rs) :
    r.depth + 1 ≤ depthList rs := by
  induction rs with
  | nil => simp at h
  | cons a rest ih =>
    rw [depthList]
    rcases List.mem_cons.mp h with rfl | h
    · exact Nat.le_max_left _ _
    · exact le_trans (ih h) (Nat.le_max_right _ _)

theorem childRunner_depth_lt {s : Set σ ε} {name : String} {child : Runner σ ε}
    (h : s.childRunner name = some child) : child.depth + 1 ≤ s.depth := by
  obtain ⟨pre, post, hsplit, _, _⟩ := FirstChild_of_childRunner h
  cases s with
  | mk n d rs =>
    have hmem : child ∈ rs := by
      have : rs = pre ++ child :: post := hsplit
      rw [this]; simp
    have := depth_le_depthList hmem
    rw [Set.depth]
    omega

theorem Runner.route_length_le_depth (r : Runner σ ε) (args : List String) :
    (r.route args).1.length ≤ r.depth := by
  induction args generalizing r with
  | nil =>
    cases r with
    | command c => simp [Runner.route_command]
    | set s => simp [Runner.route_set_nil]
  | cons a rest ih =>
    cases r with
    | command c => simp [Runner.route_command]
    | set s =>
      cases hc : s.childRunner a with
      | none => simp [Runner.route_set_none hc]
      | some child =>
        have h1 := ih child
        have h2 := childRunner_depth_lt hc
        simp only [Runner.route_set_some hc, List.length_cons]
        rw [Runner.depth]
        omega

theorem Runner.route_names (r : Runner σ ε) (args : List String) :
    (r.route args).1.map Set.Name ++ [(r.route args).2.Name] =
      r.Name :: args.take (r.route args).1.length := by
  induction args generalizing r with
  | nil =>
    cases r with
    | command c => simp [Runner.route_command]
    | set s => simp [Runner.route_set_nil]
  | cons a rest ih =>
    cases r with
    | command c => simp [Runner.route_command]
    | set s =>
      cases hc : s.childRunner a with
      | none => simp [Runner.route_set_none hc]
      | some child =>
        obtain ⟨_, _, _, _, hname⟩ := FirstChild_of_childRunner hc
        have := ih child
        simp only [Runner.route_set_some hc, List.map_cons, List.cons_append, List.length_cons,
          List.take_succ_cons]
        rw [this, hname]
        rfl

theorem Runner.route_stops (r : Runner σ ε) (args : List String) :
    (∃ c, (r.route args).2 = .command c) ∨
    (∃ s, (r.route args).2 = .set s ∧
      (args.drop (r.route args).1.length = [] ∨
        ∃ a rest, args.drop (r.route args).1.length = a :: rest ∧ s.childRunner a = none)) := by
  induction args generalizing r with
  | nil =>
    cases r with
    | command c => exact Or.inl ⟨c, by rw [Runner.route_command]⟩
    | set s => exact Or.inr ⟨s, by rw [Runner.route_set_nil], Or.inl (by simp)⟩
  | cons a rest ih =>
    cases r with
    | command c => exact Or.inl ⟨c, by rw [Runner.route_command]⟩
    | set s =>
      cases hc : s.childRunner a with
      | none =>
        rw [Runner.route_set_none hc]
        exact Or.inr ⟨s, rfl, Or.inr ⟨a, rest, rfl, hc⟩⟩
      | some child =>
        rw [Runner.route_set_some hc]
        simpa using ih child

/-! ## Arguments and termination -/

/-- C15: for every root unit `r`, leaf or group, and every argument list, when the
dispatch passes the groups `gs` and stops at a leaf `l` whose handler `fn` is set, the
top-level `Run` is the call of `fn` on a context `ctx` and arguments `rest` such that the
name-path of `ctx` without its first element, followed by `rest`, is the argument list,
so that the two lengths add up to one more than the number of arguments. -/
theorem run_partitions_arguments (r : Runner σ ε) (args : List String) (w : σ)
    (gs : List (Set σ ε)) (l : Command σ ε) (fn : CommandFunc σ ε)
    (hroute : r.route args = (gs, .command l)) (hfn : l.runFn = some fn) :
    ∃ ctx rest, Run r args w = fn ctx rest w ∧
      Names ctx = gs.map Set.Name ++ [l.Name] ∧ rest = args.drop gs.length ∧
      (Names ctx).tail ++ rest = args ∧
      (Names ctx).length + rest.length = args.length + 1 := by
  have hlink := Runner.Run_eq_route r Background args w
  have hnames := Runner.route_names r args
  have hlen := Runner.route_length_le r args
  rw [hroute] at hlink hnames hlen
  simp only at hlink hnames hlen
  have hpath : Names (withName (passGroups Background gs) (.command l)) =
      gs.map Set.Name ++ [l.Name] := by
    rw [Names_withName, Names_passGroups, Names_Background]
    rfl
  refine ⟨withName (passGroups Background gs) (.command l), args.drop gs.length, ?_, hpath,
    rfl, ?_, ?_⟩
  · unfold Run
    rw [hlink, Runner.Run_command, Command.Run_some hfn]
  · rw [hpath]
    have : gs.map Set.Name ++ [l.Name] = r.Name :: args.take gs.length := hnames
    rw [this, List.tail_cons, List.take_append_drop]
  · rw [hpath]
    simp only [List.length_append, List.length_map, List.length_cons, List.length_nil,
      List.length_drop]
    omega

/-- C15, on the tree of `TestSet` with `user add -email x@example.com`. -/
theorem run_partitions_arguments_witness :
    ∃ ctx rest, Run (.set testSet) ["user", "add", "-email", "x@example.com"] ([], []) =
        record ctx rest ([], []) ∧
      Names ctx = [testSet, testUser].map Set.Name ++ [testAdd.Name] ∧
      rest = ["user", "add", "-email", "x@example.com"].drop [testSet, testUser].length ∧
      (Names ctx).tail ++ rest = ["user", "add", "-email", "x@example.com"] ∧
      (Names ctx).length + rest.length =
        ["user", "add", "-email", "x@example.com"].length + 1 :=
  run_partitions_arguments (.set testSet) ["user", "add", "-email", "x@example.com"] ([], [])
    [testSet, testUser] testAdd record rfl rfl

/-- C16: `Run` is a total function, and on every unit, context and argument list the
number of groups it routes through is at most the number of arguments and at most the
depth of the tree; the run is the run of the unit where the dispatch stops, on the
arguments left after one argument for each group passed; and that last run does not
recurse: it is the run of a leaf, or a group with no arguments left, which fails with
`no commands selected`, or a group whose next argument names no child, which fails with
`command not found`. -/
theorem run_route_bounded (r : Runner σ ε) (ctx : Context) (args : List String) (w : σ) :
    (r.route args).1.length ≤ args.length ∧
    (r.route args).1.length ≤ r.depth ∧
    r.Run ctx args w =
      (r.route args).2.Run (passGroups ctx (r.route args).1)
        (args.drop (r.route args).1.length) w ∧
    ((∃ c, (r.route args).2 = .command c ∧
        r.Run ctx args w =
          c.Run (passGroups ctx (r.route args).1) (args.drop (r.route args).1.length) w) ∨
      (∃ s, (r.route args).2 = .set s ∧ args.drop (r.route args).1.length = [] ∧
        r.Run ctx args w = (some (.errorSetRun s "no commands selected"), w)) ∨
      (∃ s a rest, (r.route args).2 = .set s ∧
        args.drop (r.route args).1.length = a :: rest ∧ s.childRunner a = none ∧
        r.Run ctx args w = (some (.errorSetRun s "command not found"), w))) := by
  have hlink := Runner.Run_eq_route r ctx args w
  refine ⟨Runner.route_length_le r args, Runner.route_length_le_depth r args, hlink, ?_⟩
  rcases Runner.route_stops r args with ⟨c, hc⟩ | ⟨s, hs, hnil | ⟨a, rest, hrem, hnone⟩⟩
  · refine Or.inl ⟨c, hc, ?_⟩
    rw [hlink, hc, Runner.Run_command]
  · refine Or.inr (Or.inl ⟨s, hs, hnil, ?_⟩)
    rw [hlink, hs, hnil, Runner.Run_set, Set.Run_nil]
  · refine Or.inr (Or.inr ⟨s, a, rest, hs, hrem, hnone, ?_⟩)
    rw [hlink, hs, hrem, Runner.Run_set, Set.Run_cons_none hnone]

/-- C16, on the tree of `TestSetFails` with the arguments `item x`: one group is passed, of
two arguments, in a tree of depth one. -/
theorem run_route_bounded_witness :
    (Runner.route (.set testFail) ["item", "x"]).1.length = 1 ∧
    (Runner.route (.set testFail) ["item", "x"]).1.length ≤ ["item", "x"].length ∧
    (Runner.route (.set testFail) ["item", "x"]).1.length ≤ Runner.depth (.set testFail) ∧
    Runner.depth (.set testFail) = 1 :=
  ⟨by decide, (run_route_bounded (.set testFail) Background ["item", "x"] ()).1,
    (run_route_bounded (.set testFail) Background ["item", "x"] ()).2.1, by decide⟩

/-! ## Facts about paths -/

theorem filepathSplitLoop_spec (os : PathOS) (vol : Nat) (path : List Char) (n : Nat) :
    filepathSplitLoop os vol path n ≤ n ∧
    (∀ j, filepathSplitLoop os vol path n ≤ j → j < n →
      os.IsPathSeparator (path.getD j ' ') = false) ∧
    (filepathSplitLoop os vol path n = min vol n ∨
      ∃ i, filepathSplitLoop os vol path n = i + 1 ∧ vol ≤ i ∧
        os.IsPathSeparator (path.getD i ' ') = true) := by
  induction n with
  | zero => simp [filepathSplitLoop]
  | succ i ih =>
    unfold filepathSplitLoop
    split
    · next h =>
      obtain ⟨h1, h2, h3⟩ := ih
      refine ⟨by omega, ?_, ?_⟩
      · intro j hj hlt
        by_cases hji : j = i
        · subst hji; exact h.2
        · exact h2 j hj (by omega)
      · rcases h3 with h3 | h3
        · left
          have := h.1
          rw [h3]
          omega
        · right; exact h3
    · next h =>
      refine ⟨le_refl _, fun j hj hlt => by omega, ?_⟩
      by_cases hv : i ≥ vol
      · right
        refine ⟨i, rfl, hv, ?_⟩
        cases hs : os.IsPathSeparator (path.getD i ' ') with
        | true => rfl
        | false => exact absurd ⟨hv, hs⟩ h
      · left; omega

theorem filepathExtLoop_suffix (os : PathOS) (path : List Char) (n : Nat) :
    filepathExtLoop os path n = [] ∨ ∃ i, i < n ∧ filepathExtLoop os path n = path.drop i := by
  induction n with
  | zero => left; rfl
  | succ i ih =>
    unfold filepathExtLoop
    split
    · split
      · right; exact ⟨i, by omega, rfl⟩
      · rcases ih with h | ⟨j, hj, h⟩
        · left; exact h
        · right; exact ⟨j, by omega, h⟩
    · left; rfl

theorem getD_append_add (xs ys : List Char) (k : Nat) (d : Char) :
    (xs ++ ys).getD (xs.length + k) d = ys.getD k d := by
  induction xs with
  | nil => simp
  | cons a t ih =>
    rw [List.cons_append, List.length_cons,
      show t.length + 1 + k = (t.length + k) + 1 by omega, List.getD_cons_succ]
    exact ih

theorem filepathExtLoop_exe (os : PathOS) (stem : List Char)
    (hsep : ∀ c ∈ stem ++ ['.', 'e', 'x', 'e'], os.IsPathSeparator c = false) :
    filepathExtLoop os (stem ++ ['.', 'e', 'x', 'e']) (stem.length + 4) = ['.', 'e', 'x', 'e'] := by
  have he : os.IsPathSeparator 'e' = false := hsep 'e' (by simp)
  have hx : os.IsPathSeparator 'x' = false := hsep 'x' (by simp)
  have hd : os.IsPathSeparator '.' = false := hsep '.' (by simp)
  have g3 : (stem ++ ['.', 'e', 'x', 'e']).getD (stem.length + 3) ' ' = 'e' :=
    getD_append_add stem _ 3 ' ' 
  have g2 : (stem ++ ['.', 'e', 'x', 'e']).getD (stem.length + 2) ' ' = 'x' :=
    getD_append_add stem _ 2 ' ' 
  have g1 : (stem ++ ['.', 'e', 'x', 'e']).getD (stem.length + 1) ' ' = 'e' :=
    getD_append_add stem _ 1 ' ' 
  have g0 : (stem ++ ['.', 'e', 'x', 'e']).getD (stem.length) ' ' = '.' :=
    getD_append_add stem _ 0 ' ' 
  have e4 : stem.length + 4 = (stem.length + 3) + 1 := rfl
  rw [e4, filepathExtLoop, g3]
  simp only [he, if_true]
  rw [if_neg (by decide)]
  have e3 : stem.length + 3 = (stem.length + 2) + 1 := rfl
  rw [e3, filepathExtLoop, g2]
  simp only [hx, if_true]
  rw [if_neg (by decide)]
  have e2 : stem.length + 2 = (stem.length + 1) + 1 := rfl
  rw [e2, filepathExtLoop, g1]
  simp only [he, if_true]
  rw [if_neg (by decide)]
  rw [filepathExtLoop, g0]
  simp [hd]

/-! ## The executable name -/

/-- C13: every path `p` is a directory part `dir` followed by its final segment `seg`,
which holds no separator and starts right after the last separator behind the volume
name, or right after the volume name when there is none; `stripExeExt` gives `seg`
without its last four characters when `seg` ends in `.exe`, compared case-sensitively,
and `seg` itself otherwise. -/
theorem stripExeExt_spec (os : PathOS) (p : String) :
    ∃ dir seg : String, p = dir ++ seg ∧
      (∀ c ∈ seg.data, os.IsPathSeparator c = false) ∧
      (dir.length = min (os.volumeNameLen p) p.length ∨
        ∃ (d : String) (c : Char), dir = d.push c ∧ os.IsPathSeparator c = true ∧
          os.volumeNameLen p ≤ d.length) ∧
      (∀ stem : String, seg = stem ++ ".exe" → stripExeExt os p = stem) ∧
      ((∀ stem : String, seg ≠ stem ++ ".exe") → stripExeExt os p = seg) := by
  obtain ⟨hk, hnosep, hcut⟩ :=
    filepathSplitLoop_spec os (os.volumeNameLen p) p.data p.data.length
  generalize hkdef : filepathSplitLoop os (os.volumeNameLen p) p.data p.data.length = k
    at hk hnosep hcut
  have hout : (filepathSplit os p).2 = String.mk (p.data.drop k) := by
    simp only [filepathSplit, hkdef]
  have hsegsep : ∀ c ∈ p.data.drop k, os.IsPathSeparator c = false := by
    intro c hc
    obtain ⟨j, hj, hget⟩ := List.getElem_of_mem hc
    rw [List.length_drop] at hj
    rw [List.getElem_drop] at hget
    have := hnosep (k + j) (by omega) (by omega)
    rw [List.getD_eq_getElem _ _ (by omega)] at this
    rw [← hget]; exact this
  refine ⟨String.mk (p.data.take k), String.mk (p.data.drop k), ?_, hsegsep, ?_, ?_, ?_⟩
  · apply String.ext
    simp
  · rcases hcut with h | ⟨i, hi, hvol, hsep⟩
    · left
      simp only [String.length, List.length_take]
      omega
    · right
      have hilt : i < p.data.length := by omega
      refine ⟨String.mk (p.data.take i), p.data[i], ?_, ?_, ?_⟩
      · apply String.ext
        simp only [String.data_push, hi]
        rw [List.take_succ, List.getElem?_eq_getElem hilt]
        rfl
      · rw [List.getD_eq_getElem _ _ hilt] at hsep
        exact hsep
      · simp only [String.length, List.length_take]
        omega
  · intro stem hstem
    have hdata : p.data.drop k = stem.data ++ ['.', 'e', 'x', 'e'] := by
      have := congrArg String.data hstem
      simpa using this
    have hext : filepathExt os (String.mk (p.data.drop k)) = ".exe" := by
      apply String.ext
      simp only [filepathExt]
      rw [hdata, List.length_append]
      exact filepathExtLoop_exe os stem.data (by rw [← hdata]; exact hsegsep)
    simp only [stripExeExt, hout, hext, if_true]
    apply String.ext
    simp only [String.length, hdata, List.length_append]
    simp
  · intro hno
    have hext : filepathExt os (String.mk (p.data.drop k)) ≠ ".exe" := by
      intro hext
      have hd := congrArg String.data hext
      simp only [filepathExt] at hd
      rcases filepathExtLoop_suffix os (p.data.drop k) (p.data.drop k).length with h | ⟨i, _, h⟩
      · rw [h] at hd; cases hd
      · rw [h] at hd
        apply hno (String.mk ((p.data.drop k).take i))
        apply String.ext
        simp only [String.data_append]
        rw [← hd, List.take_append_drop]
    simp only [stripExeExt, hout, if_neg hext]

/-- The table of `TestStripExeExt`, and further paths: an upper-case suffix is kept, one
suffix only is removed, and the directories are dropped. -/
theorem stripExeExt_tests :
    stripExeExt unixPaths "foo.exe" = "foo" ∧
    stripExeExt unixPaths "foo" = "foo" ∧
    stripExeExt unixPaths "bar.txt" = "bar.txt" ∧
    stripExeExt unixPaths "bar.txt.exe" = "bar.txt" ∧
    stripExeExt unixPaths "subcmd.test.exe" = "subcmd.test" ∧
    stripExeExt unixPaths "subcmd.test" = "subcmd.test" ∧
    stripExeExt unixPaths "foo.EXE" = "foo.EXE" ∧
    stripExeExt unixPaths "a.exe.exe" = "a.exe" ∧
    stripExeExt unixPaths "/opt/tools.exe/subcmd.test.exe" = "subcmd.test" := by
  decide

/-! ## Facts about slices -/

theorem take_succ_set (a : List String) (n : Nat) (x : String) (h : n < a.length) :
    (a.set n x).take (n + 1) = a.take n ++ [x] := by
  induction a generalizing n with
  | nil => simp at h
  | cons y t ih =>
    cases n with
    | zero => simp
    | succ m =>
      have hm : m < t.length := by simpa using h
      simp [ih m hm]

theorem take_set_same (a : List String) (n : Nat) (x : String) :
    (a.set n x).take n = a.take n := by
  induction a generalizing n with
  | nil => simp
  | cons y t ih =>
    cases n with
    | zero => simp
    | succ m => simp [ih m]

theorem heap_getD_set (h : Heap) (i : Nat) (v : List String) (hi : i < h.length) :
    (h.set i v).getD i [] = v := by
  simp [List.getD_eq_getElem?_getD, hi]

theorem appendSlice_read (grow : Nat → Nat → Nat) (h : Heap) (s : Slice) (x : String)
    (hwf : s.WellFormed h) :
    (appendSlice grow h s x).1.read (appendSlice grow h s x).2 = s.read h ++ [x] ∧
    s.read (appendSlice grow h s x).2 = s.read h := by
  obtain ⟨hlen, hcap⟩ := hwf
  unfold appendSlice
  split
  · next hspare =>
    rcases hcap with h0 | ⟨harr, hsize⟩
    · omega
    · simp only [Slice.read]
      rw [heap_getD_set h _ _ harr]
      exact ⟨take_succ_set _ _ _ (by omega), take_set_same _ _ _⟩
  · next hfull =>
    have hreadlen : (s.read h).length = s.len := by
      rcases hcap with h0 | ⟨harr, hsize⟩
      · have : s.len = 0 := by omega
        simp [Slice.read, this]
      · simp only [Slice.read, List.length_take]
        omega
    constructor
    · simp only [Slice.read]
      rw [List.getD_eq_getElem?_getD, List.getElem?_append_right (le_refl _)]
      simp only [Nat.sub_self, List.getElem?_cons_zero, Option.getD_some]
      have hr : (h.getD s.array []).take s.len = s.read h := rfl
      rw [hr, ← hreadlen, List.take_append_eq_append_take]
      simp
    · rcases hcap with h0 | ⟨harr, hsize⟩
      · have : s.len = 0 := by omega
        simp [Slice.read, this]
      · simp only [Slice.read]
        rw [List.getD_eq_getElem?_getD, List.getD_eq_getElem?_getD,
          List.getElem?_append_left harr]

theorem withNameSlice_names (grow : Nat → Nat → Nat) (h : Heap) (ctx : SliceContext)
    (r : Runner σ ε) (hwf : (NamesSlice ctx).WellFormed h) :
    NamesOn (withNameSlice grow h ctx r).2 (withNameSlice grow h ctx r).1 =
      NamesOn h ctx ++ [r.Name] ∧
    NamesOn (withNameSlice grow h ctx r).2 ctx = NamesOn h ctx :=
  appendSlice_read grow h (NamesSlice ctx) r.Name hwf

theorem withNameSlice_shares_spare_capacity (grow : Nat → Nat → Nat) (h : Heap)
    (ctx : SliceContext) (a b : Runner σ ε) (hwf : (NamesSlice ctx).WellFormed h)
    (hspare : (NamesSlice ctx).len < (NamesSlice ctx).cap) :
    NamesOn (withNameSlice grow (withNameSlice grow h ctx a).2 ctx b).2
        (withNameSlice grow h ctx a).1 =
      NamesOn h ctx ++ [b.Name] := by
  have hsome : ∀ x : Slice, NamesSlice { names := some x } = x := fun _ => rfl
  simp only [withNameSlice, NamesOn, hsome]
  generalize NamesSlice ctx = s at hwf hspare ⊢
  obtain ⟨hlen, hcap⟩ := hwf
  rcases hcap with h0 | ⟨harr, hsize⟩
  · omega
  · have hle : s.len + 1 ≤ s.cap := hspare
    simp only [appendSlice, if_pos hle, Slice.read]
    rw [heap_getD_set _ _ _ (by simpa using harr), heap_getD_set _ _ _ harr]
    rw [take_succ_set _ _ _ (by rw [List.length_set]; omega), take_set_same]

/-! ## Extending a context twice -/

/-- C12 does not hold on the code: `withName` appends to the stored slice without copying
it. The context a handler receives below two groups holds a name-path of length 3 in a
backing array of capacity 4; extending it with `a` and then with `b` writes the same
slot twice, so the name-path of the first extension, read afterwards, ends in `b` and
no longer in `a`. The name-path of the context itself and that of the second extension
are as the claim says. -/
theorem withName_second_extension_overwrites_first :
    NamesSlice sharedCtx.1 = { array := 2, len := 3, cap := 4 } ∧
    NamesOn sharedCtx.2 sharedCtx.1 = ["first", "second", "third"] ∧
    NamesOn sharedCtxA.2 sharedCtxA.1 = ["first", "second", "third", "a"] ∧
    NamesOn sharedCtxB.2 sharedCtxB.1 = ["first", "second", "third", "b"] ∧
    NamesOn sharedCtxB.2 sharedCtx.1 = ["first", "second", "third"] ∧
    NamesOn sharedCtxB.2 sharedCtxA.1 = ["first", "second", "third", "b"] ∧
    NamesOn sharedCtxB.2 sharedCtxA.1 ≠ NamesOn sharedCtx.2 sharedCtx.1 ++ [unitA.Name] := by
  decide

end Subcmd
